import Mathlib

/-!
# Verification of the Gomoku game engine (`game.py`)

A shallow embedding of the Gomoku board game engine: the `Board` primitives
(legal-move enumeration, piece placement, five-in-a-row detection), the
`GomokuGame` environment contract (state transition, valid-move vector,
termination verdict, canonical form, dihedral symmetries) and the `Arena`
match driver.

Board snapshots are modelled as total functions `Int → Int → Int` together
with an explicit size `n`; only the values on `[0, n) × [0, n)` are ever
consulted by the engine, mirroring the `n × n` numpy array of the source.
Cell values follow the source encoding: `0` = empty, `1` = white, `-1` = black.
The in-place numpy mutation of the source (`np.copy` followed by
`execute_move`) is modelled as a functional update on a fresh value, which is
exactly the copy-on-write behaviour of `GomokuGame.getNextState`.
-/

/-- A board snapshot: the cell value at (x, y).  The source stores an
`n × n` nested list / numpy array indexed as `pieces[x][y]`. -/
abbrev BoardFn := Int → Int → Int

namespace Gomoku

/-- Bounds check `0 <= t < n` used by the scanning loops of `Board.is_win`. -/
def inB (n : Nat) (t : Int) : Bool := decide (0 ≤ t) && decide (t < (n : Int))

/-- Action decoding used by `GomokuGame.getNextState`:
`move = (action // self.n, action % self.n)`. -/
def decodeAction (n a : Nat) : Nat × Nat := (a / n, a % n)

/-- Move encoding used by `GomokuGame.getValidMoves`:
`valids[self.n * x + y] = 1`. -/
def encodeMove (n : Nat) (m : Nat × Nat) : Nat := n * m.1 + m.2

/-- `Board.get_legal_moves`: all `(x, y)` with `self[x][y] == 0`, scanned with
`y` in the outer loop and `x` in the inner loop.  The `color` argument is
accepted and ignored, as in the source. -/
def get_legal_moves (n : Nat) (B : BoardFn) (_color : Int) : List (Nat × Nat) :=
  (List.range n).flatMap (fun (y : Nat) =>
    (List.range n).filterMap (fun (x : Nat) =>
      if B (x : Int) (y : Int) = 0 then some (x, y) else none))

/-- `Board.has_legal_moves`: true iff some cell is empty. -/
def has_legal_moves (n : Nat) (B : BoardFn) : Bool :=
  (List.range n).any (fun (y : Nat) =>
    (List.range n).any (fun (x : Nat) => decide (B (x : Int) (y : Int) = 0)))

/-- `Board.execute_move`: `self[x][y] = color`, with no occupancy or bounds
check whatsoever.  In this functional model the write is a pointwise update. -/
def execute_move (B : BoardFn) (x y : Int) (color : Int) : BoardFn :=
  fun a b => if a = x ∧ b = y then color else B a b

/-- One of the two `while` loops of `Board.is_win`: starting from `(tx, ty)`,
count how many consecutive in-bounds cells hold `color`, stepping by
`(dx, dy)`.  The source loop is bounded by the board edge, so at most `n - 1`
cells are counted in any direction; `fuel` is the recursion bound and is
instantiated with `n` by `is_win`, which the loop can never exhaust. -/
def countDir (n : Nat) (B : BoardFn) (color dx dy : Int) :
    Nat → Int → Int → Nat
  | 0, _, _ => 0
  | fuel + 1, tx, ty =>
      if inB n tx && inB n ty && decide (B tx ty = color) then
        1 + countDir n B color dx dy fuel (tx + dx) (ty + dy)
      else 0

/-- The four axis directions scanned by `Board.is_win`. -/
def directions : List (Int × Int) := [(1, 0), (0, 1), (1, 1), (1, -1)]

/-- `Board.is_win`: for every cell holding `color` and each of the four axis
directions, count the run through that cell (`1 +` forward `+` backward) and
succeed as soon as a count reaches 5. -/
def is_win (n : Nat) (B : BoardFn) (color : Int) : Bool :=
  (List.range n).any (fun (y : Nat) =>
    (List.range n).any (fun (x : Nat) =>
      decide (B (x : Int) (y : Int) = color) &&
        directions.any (fun d =>
          decide (5 ≤ 1 +
            countDir n B color d.1 d.2 n ((x : Int) + d.1) ((y : Int) + d.2) +
            countDir n B color (-d.1) (-d.2) n ((x : Int) - d.1) ((y : Int) - d.2)))))

/-- `GomokuGame.getInitBoard`: the all-empty grid. -/
def getInitBoard : BoardFn := fun _ _ => 0

/-- `GomokuGame.getActionSize`: `n * n`. -/
def getActionSize (n : Nat) : Nat := n * n

/-- `GomokuGame.getNextState`: decode the action with `decodeAction`, write
`player`'s mark on a copy of the snapshot, return the copy and `-player`. -/
def getNextState (n : Nat) (B : BoardFn) (player : Int) (action : Nat) :
    BoardFn × Int :=
  let move := decodeAction n action
  (execute_move B (move.1 : Int) (move.2 : Int) player, -player)

/-- `GomokuGame.getValidMoves`: start from the all-zero vector of length
`n * n` and set entry `encodeMove n (x, y)` to 1 for every legal `(x, y)`. -/
def getValidMoves (n : Nat) (B : BoardFn) (player : Int) : List Int :=
  (get_legal_moves n B player).foldl
    (fun v m => v.set (encodeMove n m) 1)
    (List.replicate (getActionSize n) 0)

/-- `GomokuGame.getGameEnded`: win for `player` first, then win for `-player`,
then board exhaustion, else no verdict (`None`). -/
def getGameEnded (n : Nat) (B : BoardFn) (player : Int) : Option Int :=
  if is_win n B player then some 1
  else if is_win n B (-player) then some (-1)
  else if ¬ has_legal_moves n B then some 0
  else none

/-- `GomokuGame.getCanonicalForm`: `player * board`, elementwise. -/
def getCanonicalForm (B : BoardFn) (player : Int) : BoardFn :=
  fun x y => player * B x y

/-- An `n × n` matrix: the Fin-indexed view of the numpy arrays manipulated
by `GomokuGame.getSymmetries`. -/
abbrev Mat (n : Nat) (α : Type) := Fin n → Fin n → α

/-- `np.rot90(m)` (one counterclockwise quarter turn): entry `(i, j)` of the
result is entry `(j, n - 1 - i)` of the input. -/
def rot90 {n : Nat} {α : Type} (M : Mat n α) : Mat n α :=
  fun i j => M j i.rev

/-- `np.rot90(m, k)`: `k` quarter turns. -/
def rotIter {n : Nat} {α : Type} : Nat → Mat n α → Mat n α
  | 0, M => M
  | k + 1, M => rot90 (rotIter k M)

/-- `np.fliplr(m)`: entry `(i, j)` of the result is entry `(i, n - 1 - j)`
of the input. -/
def fliplr {n : Nat} {α : Type} (M : Mat n α) : Mat n α :=
  fun i j => M i j.rev

lemma row_major_lt {n : Nat} (i j : Fin n) : i.val * n + j.val < n * n := by
  have h1 : i.val * n + j.val < (i.val + 1) * n := by
    rw [Nat.succ_mul]; omega
  have h2 : (i.val + 1) * n ≤ n * n := Nat.mul_le_mul_right n i.isLt
  omega

lemma size_pos_of_fin {n : Nat} (a : Fin (n * n)) : 0 < n := by
  rcases Nat.eq_zero_or_pos n with h | h
  · exact absurd a.isLt (by simp [h])
  · exact h

/-- The row-major position of cell `(i, j)` in a flattened `n × n` array. -/
def finEncode {n : Nat} (p : Fin n × Fin n) : Fin (n * n) :=
  ⟨p.1.val * n + p.2.val, row_major_lt p.1 p.2⟩

/-- The cell of an `n × n` array that flattened position `a` refers to. -/
def finDecode {n : Nat} (a : Fin (n * n)) : Fin n × Fin n :=
  (⟨a.val / n, Nat.div_lt_of_lt_mul a.isLt⟩,
   ⟨a.val % n, Nat.mod_lt _ (size_pos_of_fin a)⟩)

/-- `np.reshape(pi, (n, n))` (row-major): entry `(i, j)` is `pi[i * n + j]`. -/
def reshapePi {n : Nat} {α : Type} (pi : Fin (n * n) → α) : Mat n α :=
  fun i j => pi (finEncode (i, j))

/-- `m.ravel()` (row-major flattening): entry `a` is `m[a // n][a % n]`. -/
def ravel {n : Nat} {α : Type} (M : Mat n α) : Fin (n * n) → α :=
  fun a => M (finDecode a).1 (finDecode a).2

/-- `GomokuGame.getSymmetries`: for `i in range(1, 5)` and
`j in [True, False]`, rotate board and reshaped policy by `i` quarter turns,
flip both left-right when `j`, and collect the pairs (policy re-flattened).
The `assert len(pi) == self.n ** 2` precondition is captured by the type of
`pi`. -/
def getSymmetries {n : Nat} {α β : Type} (board : Mat n α)
    (pi : Fin (n * n) → β) : List (Mat n α × (Fin (n * n) → β)) :=
  let piBoard := reshapePi pi
  (List.range 4).flatMap (fun i =>
    [true, false].map (fun j =>
      let newB := rotIter (i + 1) board
      let newPi := rotIter (i + 1) piBoard
      if j then (fliplr newB, ravel (fliplr newPi))
      else (newB, ravel newPi)))

/-- The duck-typed game object consumed by `Arena` in the source; the Gomoku
environment is its one instantiation here, but the Arena code is generic in
it.  `getValidMoves` is the indicator vector viewed as an index function. -/
structure GameI (S : Type) where
  getInitBoard : S
  getGameEnded : S → Int → Option Int
  getValidMoves : S → Int → Nat → Int
  getCanonicalForm : S → Int → S
  getNextState : S → Int → Nat → S × Int

/-- `players[curPlayer + 1]` with `players = [player2, None, player1]`:
`curPlayer = 1` selects `player1`, `curPlayer = -1` selects `player2`. -/
def playerFor {S : Type} (p1 p2 : S → Nat) (cur : Int) : S → Nat :=
  if cur = 1 then p1 else p2

/-- The `while` loop of `Arena.playGame`.  Each iteration asks the current
player for an action on the canonical board, replays the source's
`assert valids[action] > 0` (an invalid action aborts the match: `none`),
and advances with `getNextState`.  When `getGameEnded` yields a verdict `r`
the match returns `curPlayer * r`.  `fuel` bounds the number of iterations;
exhausting it also yields `none` (the source loop would still be running). -/
def playGameLoop {S : Type} (g : GameI S) (p1 p2 : S → Nat) :
    Nat → S → Int → Option Int
  | 0, _, _ => none
  | fuel + 1, board, cur =>
      match g.getGameEnded board cur with
      | some r => some (cur * r)
      | none =>
          let canon := g.getCanonicalForm board cur
          let action := playerFor p1 p2 cur canon
          if g.getValidMoves canon 1 action = 0 then none
          else
            let next := g.getNextState board cur action
            playGameLoop g p1 p2 fuel next.1 next.2

/-- `Arena.playGame`: start from the initial board with player 1 to move. -/
def playGame {S : Type} (g : GameI S) (p1 p2 : S → Nat) (fuel : Nat) :
    Option Int :=
  playGameLoop g p1 p2 fuel g.getInitBoard 1

/-- Tally update of the first `Arena.playGames` loop (player1 seated first):
result `1` increments `oneWon`, `-1` increments `twoWon`, anything else
increments `draws`. -/
def tallyFirst (acc : Nat × Nat × Nat) (r : Int) : Nat × Nat × Nat :=
  if r = 1 then (acc.1 + 1, acc.2.1, acc.2.2)
  else if r = -1 then (acc.1, acc.2.1 + 1, acc.2.2)
  else (acc.1, acc.2.1, acc.2.2 + 1)

/-- Tally update of the second `Arena.playGames` loop (seats swapped):
result `-1` increments `oneWon`, `1` increments `twoWon`, anything else
increments `draws`. -/
def tallySecond (acc : Nat × Nat × Nat) (r : Int) : Nat × Nat × Nat :=
  if r = -1 then (acc.1 + 1, acc.2.1, acc.2.2)
  else if r = 1 then (acc.1, acc.2.1 + 1, acc.2.2)
  else (acc.1, acc.2.1, acc.2.2 + 1)

/-- One `for _ in range(k)` loop of `Arena.playGames`: play `k` games with
`pA` seated first and fold the results into the tally with `t`.  A game that
aborts (or exhausts its fuel) propagates as `none`, as the source's
`AssertionError` would. -/
def playGamesLoop {S : Type} (g : GameI S) (pA pB : S → Nat) (fuel : Nat)
    (t : Nat × Nat × Nat → Int → Nat × Nat × Nat) :
    Nat → Nat × Nat × Nat → Option (Nat × Nat × Nat)
  | 0, acc => some acc
  | k + 1, acc =>
      match playGame g pA pB fuel with
      | none => none
      | some r => playGamesLoop g pA pB fuel t k (t acc r)

/-- `Arena.playGames`: `num = int(num / 2)`; `num` games with player1 seated
first, then the seats are swapped and `num` more games are played, the
second-half results tallied with the inverted sign convention. -/
def playGames {S : Type} (g : GameI S) (p1 p2 : S → Nat) (fuel num : Nat) :
    Option (Nat × Nat × Nat) :=
  let half := num / 2
  match playGamesLoop g p1 p2 fuel tallyFirst half (0, 0, 0) with
  | none => none
  | some acc => playGamesLoop g p2 p1 fuel tallySecond half acc

/-- The Gomoku instantiation of the game interface the Arena drives, at board
size `n`: exactly the `GomokuGame` methods defined above, with the valid-move
list read through `List.getD` (out-of-range reads yield 0, as a Python
`IndexError` never reports a valid move). -/
def gomokuGameI (n : Nat) : GameI BoardFn where
  getInitBoard := getInitBoard
  getGameEnded := getGameEnded n
  getValidMoves := fun B p a => (getValidMoves n B p).getD a 0
  getCanonicalForm := getCanonicalForm
  getNextState := getNextState n

/-! ## Specification-side predicates and auxiliary definitions

Definitions below are the property side of the claims (five-in-a-row as a
run of five consecutive cells, occupied-cell counting, the dihedral
coordinate permutations) together with the concrete boards and the concrete
deterministic game used by witnesses and counterexamples. -/

/-- Property-level five-in-a-row: five consecutive in-bounds cells of color
`c` along one of the four axis directions, starting at `(x, y)`. -/
def hasFiveInRow (n : Nat) (B : BoardFn) (c : Int) : Prop :=
  ∃ (x y : Int) (d : Int × Int), d ∈ directions ∧
    ∀ i : Nat, i < 5 →
      inB n (x + (i : Int) * d.1) = true ∧
      inB n (y + (i : Int) * d.2) = true ∧
      B (x + (i : Int) * d.1) (y + (i : Int) * d.2) = c

/-- The number of occupied (non-zero) cells of the `n × n` grid. -/
def countOccupied (n : Nat) (B : BoardFn) : Nat :=
  (((Finset.range n) ×ˢ (Finset.range n)).filter
    (fun q => B (q.1 : Int) (q.2 : Int) ≠ 0)).card

/-- Total of a `(oneWon, twoWon, draws)` tally. -/
def sum3 (acc : Nat × Nat × Nat) : Nat := acc.1 + acc.2.1 + acc.2.2

/-- The coordinate permutation of one counterclockwise quarter turn:
`rot90 M x y = M (rotPerm (x, y)).1 (rotPerm (x, y)).2`. -/
def rotPerm (n : Nat) : (Fin n × Fin n) ≃ (Fin n × Fin n) where
  toFun p := (p.2, p.1.rev)
  invFun p := (p.2.rev, p.1)
  left_inv p := by simp [Fin.rev_rev]
  right_inv p := by simp [Fin.rev_rev]

/-- The coordinate permutation of `fliplr`. -/
def flipPerm (n : Nat) : (Fin n × Fin n) ≃ (Fin n × Fin n) where
  toFun p := (p.1, p.2.rev)
  invFun p := (p.1, p.2.rev)
  left_inv p := by simp [Fin.rev_rev]
  right_inv p := by simp [Fin.rev_rev]

/-- `k` quarter turns as a coordinate permutation (innermost turn first). -/
def rotPermIter (n : Nat) : Nat → ((Fin n × Fin n) ≃ (Fin n × Fin n))
  | 0 => Equiv.refl _
  | k + 1 => (rotPerm n).trans (rotPermIter n k)

/-- A board whose only stone is a `1` at the origin (used to exhibit the
unchecked overwrite of `execute_move`). -/
def occBoard : BoardFn := fun x y => if x = 0 ∧ y = 0 then 1 else 0

/-- A 5×5 board with a horizontal run of exactly five `1`s in row `y = 0`. -/
def fiveRowBoard : BoardFn := fun x y =>
  if 0 ≤ x ∧ x < 5 ∧ y = 0 then 1 else 0

/-- A 5×5 board whose longest run of `1`s has length exactly four: cells
`(0,0)..(3,0)` hold `1`, the run's far end `(4,0)` is blocked by a `-1`
and its near end is the board edge. -/
def fourRunBoard : BoardFn := fun x y =>
  if 0 ≤ x ∧ x < 4 ∧ y = 0 then 1
  else if x = 4 ∧ y = 0 then -1
  else 0

/-- A deterministic game in which the first mover always wins after one
move: the state counts moves, and once a move has been made the verdict is
a loss for the side then to move. -/
def firstWinG : GameI Nat where
  getInitBoard := 0
  getGameEnded := fun s _ => if s = 0 then none else some (-1)
  getValidMoves := fun _ _ _ => 1
  getCanonicalForm := fun s _ => s
  getNextState := fun s p _ => (s + 1, -p)

/-- A game whose very first action is reported invalid, to exercise the
Arena's abort path. -/
def abortG : GameI Nat where
  getInitBoard := 0
  getGameEnded := fun _ _ => none
  getValidMoves := fun _ _ _ => 0
  getCanonicalForm := fun s _ => s
  getNextState := fun s p _ => (s + 1, -p)

/-- The trivial deterministic agent: always action 0. -/
def zeroPlayer : Nat → Nat := fun _ => 0

/-! ## Theorems -/

/-- **C1.** For every board size `N > 0` and action index `a < N²`, the
decode of `getNextState` followed by the encode of `getValidMoves` yields
`a` again, the decode lands in `[0, N) × [0, N)`, and conversely encoding
any in-range `(column, row)` pair lands in `[0, N²)` and decodes back to the
same pair: the two maps are mutually inverse bijections between `[0, N²)`
and `[0, N) × [0, N)`. -/
theorem linearization_round_trip (n : Nat) (hn : 0 < n) :
    (∀ a : Nat, a < n * n →
      encodeMove n (decodeAction n a) = a ∧
      (decodeAction n a).1 < n ∧ (decodeAction n a).2 < n) ∧
    (∀ x y : Nat, x < n → y < n →
      encodeMove n (x, y) < n * n ∧
      decodeAction n (encodeMove n (x, y)) = (x, y)) := by
  constructor
  · intro a ha
    refine ⟨?_, Nat.div_lt_of_lt_mul ha, Nat.mod_lt _ hn⟩
    simpa [encodeMove, decodeAction] using Nat.div_add_mod a n
  · intro x y hx hy
    constructor
    · have h1 : n * x + y < n * x + n := by omega
      have h2 : n * x + n = n * (x + 1) := by ring
      have h3 : n * (x + 1) ≤ n * n := Nat.mul_le_mul_left n hx
      simp only [encodeMove]
      omega
    · have hdiv : (n * x + y) / n = x := by
        simp [Nat.mul_add_div hn, Nat.div_eq_of_lt hy]
      have hmod : (n * x + y) % n = y := by
        rw [Nat.mul_add_mod, Nat.mod_eq_of_lt hy]
      simp [encodeMove, decodeAction, hdiv, hmod]

/-- Witness for C1 at `N = 15` (the default board size): action 37 decodes
to `(2, 7)` and re-encodes to 37, and `(2, 7)` encodes to 37 and decodes
back. -/
theorem linearization_round_trip_witness :
    encodeMove 15 (decodeAction 15 37) = 37 ∧
    decodeAction 15 (encodeMove 15 (2, 7)) = (2, 7) :=
  ⟨((linearization_round_trip 15 (by decide)).1 37 (by decide)).1,
   ((linearization_round_trip 15 (by decide)).2 2 7 (by decide) (by decide)).2⟩

/-- **C5.** `getCanonicalForm` is self-inverse under the same player sign,
the identity for player `+1`, and for player `-1` it swaps the two marks
while fixing empty cells. -/
theorem canonical_form_involutive (B : BoardFn) (p : Int)
    (hp : p = 1 ∨ p = -1) :
    getCanonicalForm (getCanonicalForm B p) p = B ∧
    getCanonicalForm B 1 = B ∧
    (p = -1 → ∀ x y : Int,
      (B x y = 1 → getCanonicalForm B p x y = -1) ∧
      (B x y = -1 → getCanonicalForm B p x y = 1) ∧
      (B x y = 0 → getCanonicalForm B p x y = 0)) := by
  refine ⟨?_, ?_, ?_⟩
  · funext x y
    rcases hp with h | h <;> subst h
    · simp [getCanonicalForm]
    · simp only [getCanonicalForm]
      ring
  · funext x y
    simp [getCanonicalForm]
  · rintro rfl x y
    refine ⟨?_, ?_, ?_⟩ <;> intro hB <;> simp [getCanonicalForm, hB]

/-- Witness for C5 at `p = -1` on the board holding a single `1`:
canonicalizing twice is the identity, and canonicalizing once flips the
stone at the origin to `-1`. -/
theorem canonical_form_involutive_witness :
    getCanonicalForm (getCanonicalForm occBoard (-1)) (-1) = occBoard ∧
    getCanonicalForm occBoard (-1) 0 0 = -1 :=
  ⟨(canonical_form_involutive occBoard (-1) (Or.inr rfl)).1,
   (((canonical_form_involutive occBoard (-1) (Or.inr rfl)).2.2 rfl 0 0).1
     (by simp [occBoard]))⟩

/-- **C8.** `getNextState` is a pure function of the snapshot (the source
copies the grid with `np.copy` before writing, so the caller's snapshot is
untouched); the returned snapshot differs from the input at most at the
cell the action decodes to, where it holds the player's mark, and the
returned next player is the negated player. -/
theorem next_state_frame (n : Nat) (B : BoardFn) (p : Int) (a : Nat) :
    (getNextState n B p a).2 = -p ∧
    (getNextState n B p a).1 ((a / n : Nat) : Int) ((a % n : Nat) : Int) = p ∧
    (∀ x y : Int, ¬(x = ((a / n : Nat) : Int) ∧ y = ((a % n : Nat) : Int)) →
      (getNextState n B p a).1 x y = B x y) := by
  refine ⟨rfl, ?_, ?_⟩
  · simp [getNextState, execute_move, decodeAction]
  · intro x y h
    simp only [getNextState, execute_move, decodeAction]
    rw [if_neg h]

/-- **C3.** `getGameEnded` checks a win for the querying player first (so a
simultaneous double-five resolves in the querying player's favor), then a
win for the opponent, then exhaustion, and otherwise returns `none`, which
differs from every numeric verdict. -/
theorem game_ended_priority (n : Nat) (B : BoardFn) (p : Int) :
    (is_win n B p = true → getGameEnded n B p = some 1) ∧
    (is_win n B p = false → is_win n B (-p) = true →
      getGameEnded n B p = some (-1)) ∧
    (is_win n B p = false → is_win n B (-p) = false →
      has_legal_moves n B = false → getGameEnded n B p = some 0) ∧
    (is_win n B p = false → is_win n B (-p) = false →
      has_legal_moves n B = true → getGameEnded n B p = none) ∧
    (∀ z : Int, getGameEnded n B p = none → getGameEnded n B p ≠ some z) := by
  refine ⟨?_, ?_, ?_, ?_, ?_⟩ <;> intros <;> simp_all [getGameEnded]

/-- Witness for C3 on the 5×5 board with a five-in-a-row of `1`s, queried
by player `1` (first case: win) and by player `-1` (second case: loss). -/
theorem game_ended_priority_witness :
    getGameEnded 5 fiveRowBoard 1 = some 1 ∧
    getGameEnded 5 fiveRowBoard (-1) = some (-1) :=
  ⟨(game_ended_priority 5 fiveRowBoard 1).1 (by decide),
   (game_ended_priority 5 fiveRowBoard (-1)).2.1 (by decide) (by decide)⟩

/-- **C7, counterexample.** The claim says a placement on a non-Empty cell
"refuses to proceed and signals failure (abort or explicit error result)
rather than overwrite."  `Board.execute_move` has no check at all: placing
`-1` on the occupied origin of `occBoard` silently proceeds and overwrites
the `1` that was there. -/
theorem execute_move_overwrites_counterexample :
    occBoard 0 0 = 1 ∧
    execute_move occBoard 0 0 (-1) 0 0 = -1 ∧
    execute_move occBoard 0 0 (-1) ≠ occBoard := by
  refine ⟨by simp [occBoard], by simp [execute_move], ?_⟩
  intro h
  have h0 := congrFun (congrFun h 0) 0
  simp [execute_move, occBoard] at h0

/-- **C7, amended.** `Board.execute_move` performs no occupancy check and
unconditionally writes the color (validation is the caller's job), while
the Arena does abort the match — rather than skip or retry — when the
chosen action's validity entry is 0. -/
theorem placement_unchecked_arena_aborts :
    (∀ (B : BoardFn) (x y c : Int), execute_move B x y c x y = c) ∧
    (∀ (S : Type) (g : GameI S) (p1 p2 : S → Nat) (fuel : Nat) (board : S)
      (cur : Int),
      g.getGameEnded board cur = none →
      g.getValidMoves (g.getCanonicalForm board cur) 1
        (playerFor p1 p2 cur (g.getCanonicalForm board cur)) = 0 →
      playGameLoop g p1 p2 (fuel + 1) board cur = none) := by
  constructor
  · intro B x y c
    simp [execute_move]
  · intro S g p1 p2 fuel board cur h1 h2
    simp [playGameLoop, h1, h2]

/-- Witness for the amended C7: in `abortG` the first action is invalid and
the match aborts at once. -/
theorem placement_unchecked_arena_aborts_witness :
    playGameLoop abortG zeroPlayer zeroPlayer 1 0 1 = none :=
  placement_unchecked_arena_aborts.2 Nat abortG zeroPlayer zeroPlayer 0 0 1
    rfl rfl

lemma playGamesLoop_sum {S : Type} (g : GameI S) (pA pB : S → Nat)
    (fuel : Nat) (t : Nat × Nat × Nat → Int → Nat × Nat × Nat)
    (ht : ∀ acc r, sum3 (t acc r) = sum3 acc + 1) :
    ∀ (k : Nat) (acc res : Nat × Nat × Nat),
      playGamesLoop g pA pB fuel t k acc = some res →
      sum3 res = sum3 acc + k := by
  intro k
  induction k with
  | zero =>
      intro acc res h
      simp only [playGamesLoop, Option.some.injEq] at h
      subst h
      simp
  | succ k ih =>
      intro acc res h
      simp only [playGamesLoop] at h
      cases hg : playGame g pA pB fuel with
      | none => rw [hg] at h; exact absurd h (by simp)
      | some r =>
          rw [hg] at h
          have := ih (t acc r) res h
          rw [ht acc r] at this
          omega

lemma sum3_tallyFirst (acc : Nat × Nat × Nat) (r : Int) :
    sum3 (tallyFirst acc r) = sum3 acc + 1 := by
  unfold tallyFirst
  split <;> [skip; split] <;> simp [sum3] <;> omega

lemma sum3_tallySecond (acc : Nat × Nat × Nat) (r : Int) :
    sum3 (tallySecond acc r) = sum3 acc + 1 := by
  unfold tallySecond
  split <;> [skip; split] <;> simp [sum3] <;> omega

/-- **C10.** Whenever `playGames num` completes, its tallies sum to exactly
`2 * (num / 2)`: each half plays `num / 2` games and every completed game
increments exactly one tally, so an odd `num` silently drops one game. -/
theorem play_games_tally_total (S : Type) (g : GameI S) (p1 p2 : S → Nat)
    (fuel num : Nat) (w1 w2 d : Nat)
    (h : playGames g p1 p2 fuel num = some (w1, w2, d)) :
    w1 + w2 + d = 2 * (num / 2) := by
  simp only [playGames] at h
  cases h1 : playGamesLoop g p1 p2 fuel tallyFirst (num / 2) (0, 0, 0) with
  | none => rw [h1] at h; exact absurd h (by simp)
  | some acc =>
      rw [h1] at h
      have s1 := playGamesLoop_sum g p1 p2 fuel tallyFirst sum3_tallyFirst
        (num / 2) (0, 0, 0) acc h1
      have s2 := playGamesLoop_sum g p2 p1 fuel tallySecond sum3_tallySecond
        (num / 2) acc (w1, w2, d) h
      simp [sum3] at s1 s2
      omega

/-- Witness for C10 at the odd count `num = 11` on the deterministic
first-mover-wins game: only ten games are played and the tallies sum to
`10 = 2 * (11 / 2)`. -/
theorem play_games_tally_total_witness :
    playGames firstWinG zeroPlayer zeroPlayer 2 11 = some (5, 5, 0) ∧
    5 + 5 + 0 = 2 * (11 / 2) :=
  ⟨by decide,
   play_games_tally_total Nat firstWinG zeroPlayer zeroPlayer 2 11 5 5 0
     (by decide)⟩

/-- **C9.** `playGames 10` runs five games with agent 1 seated first, swaps
the seats, runs five more, and inverts the sign interpretation of the
second-half results; for deterministic agents whose every game is won by
whichever agent moves first, the returned tally is `(5, 5, 0)`. -/
theorem play_games_seat_swap_fairness (S : Type) (g : GameI S)
    (p1 p2 : S → Nat) (fuel : Nat)
    (h1 : playGame g p1 p2 fuel = some 1)
    (h2 : playGame g p2 p1 fuel = some 1) :
    playGames g p1 p2 fuel 10 = some (5, 5, 0) := by
  simp [playGames, playGamesLoop, h1, h2, tallyFirst, tallySecond]

/-- Witness for C9: the deterministic first-mover-wins game with trivial
agents produces exactly the `(5, 5, 0)` tally over ten games. -/
theorem play_games_seat_swap_fairness_witness :
    playGames firstWinG zeroPlayer zeroPlayer 2 10 = some (5, 5, 0) :=
  play_games_seat_swap_fairness Nat firstWinG zeroPlayer zeroPlayer 2
    (by decide) (by decide)

lemma encode_lt_nn {n x y : Nat} (hx : x < n) (hy : y < n) :
    n * x + y < n * n := by
  have h3 : n * (x + 1) ≤ n * n := Nat.mul_le_mul_left n hx
  have h2 : n * (x + 1) = n * x + n := by ring
  omega

lemma encode_div {n x y : Nat} (hn : 0 < n) (hy : y < n) :
    (n * x + y) / n = x := by
  simp [Nat.mul_add_div hn, Nat.div_eq_of_lt hy]

lemma encode_mod {n : Nat} (x : Nat) {y : Nat} (hy : y < n) :
    (n * x + y) % n = y := by
  rw [Nat.mul_add_mod, Nat.mod_eq_of_lt hy]

lemma mem_get_legal_moves (n : Nat) (B : BoardFn) (c : Int) (x y : Nat) :
    (x, y) ∈ get_legal_moves n B c ↔
      x < n ∧ y < n ∧ B (x : Int) (y : Int) = 0 := by
  constructor
  · intro h
    rcases List.mem_flatMap.mp h with ⟨b, hb, h2⟩
    rcases List.mem_filterMap.mp h2 with ⟨a, ha, h3⟩
    rw [List.mem_range] at hb ha
    by_cases hB : B (a : Int) (b : Int) = 0
    · rw [if_pos hB] at h3
      have hab : a = x ∧ b = y := by simpa using h3
      rcases hab with ⟨rfl, rfl⟩
      exact ⟨ha, hb, hB⟩
    · rw [if_neg hB] at h3
      exact absurd h3 (by simp)
  · rintro ⟨hx, hy, hB⟩
    exact List.mem_flatMap.mpr ⟨y, List.mem_range.mpr hy,
      List.mem_filterMap.mpr ⟨x, List.mem_range.mpr hx, by rw [if_pos hB]⟩⟩

lemma foldl_set_length (n : Nat) :
    ∀ (ms : List (Nat × Nat)) (init : List Int),
      (ms.foldl (fun v m => v.set (encodeMove n m) 1) init).length =
        init.length
  | [], _ => rfl
  | m :: ms, init => by
      rw [List.foldl_cons, foldl_set_length n ms, List.length_set]

lemma foldl_set_getD (n : Nat) :
    ∀ (ms : List (Nat × Nat)) (init : List Int) (i : Nat),
      (∀ m ∈ ms, encodeMove n m < init.length) →
      (ms.foldl (fun v m => v.set (encodeMove n m) 1) init).getD i 0 =
        if i ∈ ms.map (encodeMove n) then 1 else init.getD i 0
  | [], init, i, _ => by simp
  | m :: ms, init, i, h => by
      have hlen : ∀ m2 ∈ ms,
          encodeMove n m2 < (init.set (encodeMove n m) 1).length := by
        intro m2 hm2
        rw [List.length_set]
        exact h m2 (List.mem_cons_of_mem m hm2)
      rw [List.foldl_cons,
        foldl_set_getD n ms (init.set (encodeMove n m) 1) i hlen]
      by_cases hmem : i ∈ ms.map (encodeMove n)
      · rw [if_pos hmem, if_pos (by simp [hmem])]
      · rw [if_neg hmem]
        by_cases heq : encodeMove n m = i
        · have hlt : i < init.length := heq ▸ h m (List.mem_cons_self m ms)
          rw [if_pos (by simp [heq]), List.getD_eq_getElem?_getD,
            List.getElem?_set, if_pos heq]
          simp [heq ▸ hlt]
        · rw [if_neg (by simp [hmem, Ne.symm heq]), List.getD_eq_getElem?_getD,
            List.getD_eq_getElem?_getD, List.getElem?_set, if_neg heq]

lemma getValidMoves_length (n : Nat) (B : BoardFn) (p : Int) :
    (getValidMoves n B p).length = n * n := by
  unfold getValidMoves
  rw [foldl_set_length, List.length_replicate, getActionSize]

lemma mem_map_encode (n : Nat) (B : BoardFn) (p : Int) (a : Nat)
    (ha : a < n * n) :
    a ∈ (get_legal_moves n B p).map (encodeMove n) ↔
      B ((a / n : Nat) : Int) ((a % n : Nat) : Int) = 0 := by
  have hn : 0 < n := by
    rcases Nat.eq_zero_or_pos n with h | h
    · subst h; simp at ha
    · exact h
  constructor
  · intro h
    rcases List.mem_map.mp h with ⟨m, hm, henc⟩
    obtain ⟨x, y⟩ := m
    rcases (mem_get_legal_moves n B p x y).mp hm with ⟨hx, hy, hB⟩
    have he : n * x + y = a := henc
    subst he
    rwa [encode_div hn hy, encode_mod x hy]
  · intro hB
    apply List.mem_map.mpr
    refine ⟨(a / n, a % n), ?_, ?_⟩
    · exact (mem_get_legal_moves n B p (a / n) (a % n)).mpr
        ⟨Nat.div_lt_of_lt_mul ha, Nat.mod_lt _ hn, hB⟩
    · exact Nat.div_add_mod a n

lemma getValidMoves_getD (n : Nat) (B : BoardFn) (p : Int) (a : Nat)
    (ha : a < n * n) :
    (getValidMoves n B p).getD a 0 =
      if B ((a / n : Nat) : Int) ((a % n : Nat) : Int) = 0 then 1 else 0 := by
  unfold getValidMoves
  rw [foldl_set_getD n _ _ a ?hlt]
  case hlt =>
    intro m hm
    obtain ⟨x, y⟩ := m
    rcases (mem_get_legal_moves n B p x y).mp hm with ⟨hx, hy, _⟩
    rw [List.length_replicate, getActionSize]
    exact encode_lt_nn hx hy
  have hrep : (List.replicate (getActionSize n) (0 : Int)).getD a 0 = 0 := by
    simp [List.getD_eq_getElem?_getD, List.getElem?_replicate, getActionSize,
      ha]
  rw [hrep]
  by_cases hB : B ((a / n : Nat) : Int) ((a % n : Nat) : Int) = 0
  · rw [if_pos ((mem_map_encode n B p a ha).mpr hB), if_pos hB]
  · rw [if_neg (fun h => hB ((mem_map_encode n B p a ha).mp h)), if_neg hB]

lemma getValidMoves_eq_map (n : Nat) (B : BoardFn) (p : Int) :
    getValidMoves n B p = (List.range (n * n)).map
      (fun a => if B ((a / n : Nat) : Int) ((a % n : Nat) : Int) = 0
        then (1 : Int) else 0) := by
  apply List.ext_getElem
  · rw [getValidMoves_length]
    simp
  · intro i h1 h2
    have hi : i < n * n := by rwa [getValidMoves_length] at h1
    have hv := getValidMoves_getD n B p i hi
    rw [List.getD_eq_getElem _ _ h1] at hv
    rw [hv]
    simp [List.getElem_map]

lemma list_sum_map_range (f : Nat → Int) :
    ∀ k : Nat, ((List.range k).map f).sum = ∑ i ∈ Finset.range k, f i
  | 0 => by simp
  | k + 1 => by
      rw [List.range_succ, List.map_append, List.sum_append,
        list_sum_map_range f k, Finset.sum_range_succ]
      simp

lemma countOccupied_eq_filter_range (n : Nat) (B : BoardFn) :
    countOccupied n B = ((Finset.range (n * n)).filter
      (fun a => B ((a / n : Nat) : Int) ((a % n : Nat) : Int) ≠ 0)).card := by
  unfold countOccupied
  apply Finset.card_bij (fun q _ => n * q.1 + q.2)
  · rintro ⟨x, y⟩ hq
    rw [Finset.mem_filter, Finset.mem_product, Finset.mem_range,
      Finset.mem_range] at hq
    rcases hq with ⟨⟨hx, hy⟩, hB⟩
    rw [Finset.mem_filter, Finset.mem_range]
    refine ⟨encode_lt_nn hx hy, ?_⟩
    have hn : 0 < n := by omega
    rw [encode_div hn hy, encode_mod x hy]
    exact hB
  · rintro ⟨x1, y1⟩ h1 ⟨x2, y2⟩ h2 heq
    rw [Finset.mem_filter, Finset.mem_product, Finset.mem_range,
      Finset.mem_range] at h1 h2
    rcases h1 with ⟨⟨_, hy1⟩, _⟩
    rcases h2 with ⟨⟨_, hy2⟩, _⟩
    have hn : 0 < n := by omega
    have heq2 : n * x1 + y1 = n * x2 + y2 := heq
    have hx : x1 = x2 := by
      have d1 : (n * x1 + y1) / n = x1 := encode_div hn hy1
      have d2 : (n * x2 + y2) / n = x2 := encode_div hn hy2
      rw [← d1, ← d2, heq2]
    subst hx
    have hy : y1 = y2 := Nat.add_left_cancel heq2
    subst hy
    rfl
  · intro b hb
    rw [Finset.mem_filter, Finset.mem_range] at hb
    rcases hb with ⟨hblt, hB⟩
    have hn : 0 < n := by
      rcases Nat.eq_zero_or_pos n with h | h
      · subst h; simp at hblt
      · exact h
    refine ⟨(b / n, b % n), ?_, Nat.div_add_mod b n⟩
    rw [Finset.mem_filter, Finset.mem_product, Finset.mem_range,
      Finset.mem_range]
    exact ⟨⟨Nat.div_lt_of_lt_mul hblt, Nat.mod_lt _ hn⟩, hB⟩

lemma countDir_sound (n : Nat) (B : BoardFn) (c dx dy : Int) :
    ∀ (fuel : Nat) (tx ty : Int) (i : Nat),
      i < countDir n B c dx dy fuel tx ty →
      inB n (tx + (i : Int) * dx) = true ∧
      inB n (ty + (i : Int) * dy) = true ∧
      B (tx + (i : Int) * dx) (ty + (i : Int) * dy) = c := by
  intro fuel
  induction fuel with
  | zero =>
      intro tx ty i h
      simp [countDir] at h
  | succ fuel ih =>
      intro tx ty i h
      simp only [countDir] at h
      by_cases hc : (inB n tx && inB n ty && decide (B tx ty = c)) = true
      · rw [if_pos hc] at h
        simp only [Bool.and_eq_true, decide_eq_true_eq] at hc
        cases i with
        | zero =>
            simpa using ⟨hc.1.1, hc.1.2, hc.2⟩
        | succ j =>
            have hj : j < countDir n B c dx dy fuel (tx + dx) (ty + dy) := by
              omega
            have hs := ih (tx + dx) (ty + dy) j hj
            have e1 : tx + dx + (j : Int) * dx =
                tx + ((j + 1 : Nat) : Int) * dx := by push_cast; ring
            have e2 : ty + dy + (j : Int) * dy =
                ty + ((j + 1 : Nat) : Int) * dy := by push_cast; ring
            rw [e1, e2] at hs
            exact hs
      · rw [if_neg hc] at h
        omega

lemma countDir_complete (n : Nat) (B : BoardFn) (c dx dy : Int) :
    ∀ (m fuel : Nat) (tx ty : Int), m ≤ fuel →
      (∀ i : Nat, i < m →
        inB n (tx + (i : Int) * dx) = true ∧
        inB n (ty + (i : Int) * dy) = true ∧
        B (tx + (i : Int) * dx) (ty + (i : Int) * dy) = c) →
      m ≤ countDir n B c dx dy fuel tx ty := by
  intro m
  induction m with
  | zero => intro fuel tx ty _ _; exact Nat.zero_le _
  | succ m ih =>
      intro fuel tx ty hmf hcells
      cases fuel with
      | zero => omega
      | succ fuel =>
          have h0 := hcells 0 (Nat.succ_pos m)
          simp only [Nat.cast_zero, zero_mul, add_zero] at h0
          have hrest : ∀ i : Nat, i < m →
              inB n ((tx + dx) + (i : Int) * dx) = true ∧
              inB n ((ty + dy) + (i : Int) * dy) = true ∧
              B ((tx + dx) + (i : Int) * dx) ((ty + dy) + (i : Int) * dy)
                = c := by
            intro i hi
            have hs := hcells (i + 1) (by omega)
            have e1 : tx + ((i + 1 : Nat) : Int) * dx =
                tx + dx + (i : Int) * dx := by push_cast; ring
            have e2 : ty + ((i + 1 : Nat) : Int) * dy =
                ty + dy + (i : Int) * dy := by push_cast; ring
            rw [e1, e2] at hs
            exact hs
          have htail := ih fuel (tx + dx) (ty + dy) (by omega) hrest
          simp only [countDir]
          rw [if_pos (by simp [h0.1, h0.2.1, h0.2.2])]
          omega

/-- **C2.** The valid-move vector has length `N²`; its entry at index `a` is
1 exactly when the cell `a` decodes to is Empty and 0 exactly when that cell
is occupied; and the sum of its entries plus the number of occupied cells
equals `N²`. -/
theorem valid_moves_indicator (n : Nat) (B : BoardFn) (p : Int) :
    (getValidMoves n B p).length = n * n ∧
    (∀ a : Nat, a < n * n →
      ((getValidMoves n B p).getD a 0 = 1 ↔
        B ((a / n : Nat) : Int) ((a % n : Nat) : Int) = 0) ∧
      ((getValidMoves n B p).getD a 0 = 0 ↔
        B ((a / n : Nat) : Int) ((a % n : Nat) : Int) ≠ 0)) ∧
    (getValidMoves n B p).sum + (countOccupied n B : Int) =
      ((n * n : Nat) : Int) := by
  refine ⟨getValidMoves_length n B p, ?_, ?_⟩
  · intro a ha
    rw [getValidMoves_getD n B p a ha]
    by_cases hB : B ((a / n : Nat) : Int) ((a % n : Nat) : Int) = 0 <;>
      simp [hB]
  · rw [getValidMoves_eq_map, list_sum_map_range,
      countOccupied_eq_filter_range, Finset.card_filter, Nat.cast_sum]
    simp only [Nat.cast_ite, Nat.cast_one, Nat.cast_zero]
    rw [← Finset.sum_add_distrib]
    have hone : ∀ a ∈ Finset.range (n * n),
        ((if B ((a / n : Nat) : Int) ((a % n : Nat) : Int) = 0
            then (1 : Int) else 0) +
          (if B ((a / n : Nat) : Int) ((a % n : Nat) : Int) ≠ 0
            then (1 : Int) else 0)) = 1 := by
      intro a _
      by_cases hB : B ((a / n : Nat) : Int) ((a % n : Nat) : Int) = 0
      · rw [if_pos hB, if_neg (not_not_intro hB)]
        norm_num
      · rw [if_neg hB, if_pos hB]
        norm_num
    rw [Finset.sum_congr rfl hone]
    simp

/-- **C4.** `Board.is_win` returns true exactly when five consecutive
in-bounds cells of the queried color lie along one of the four axis
directions — equivalently, when some maximal contiguous run has length at
least 5.  In particular it is true on the 5×5 board with a horizontal run
of exactly five, and false on the board whose longest run is exactly four
with one end at the edge and the other blocked by the opponent. -/
theorem is_win_iff_five_in_row :
    (∀ (n : Nat) (B : BoardFn) (c : Int),
      is_win n B c = true ↔ hasFiveInRow n B c) ∧
    is_win 5 fiveRowBoard 1 = true ∧
    is_win 5 fourRunBoard 1 = false := by
  refine ⟨?_, by decide, by decide⟩
  intro n B c
  constructor
  · intro h
    simp only [is_win, List.any_eq_true, List.mem_range, Bool.and_eq_true,
      decide_eq_true_eq] at h
    obtain ⟨y, hy, x, hx, hBxy, d, hd, hcount⟩ := h
    refine ⟨(x : Int) - (countDir n B c (-d.1) (-d.2) n
        ((x : Int) - d.1) ((y : Int) - d.2) : Nat) * d.1,
      (y : Int) - (countDir n B c (-d.1) (-d.2) n
        ((x : Int) - d.1) ((y : Int) - d.2) : Nat) * d.2, d, hd, ?_⟩
    set b := countDir n B c (-d.1) (-d.2) n ((x : Int) - d.1)
      ((y : Int) - d.2) with hb
    set f := countDir n B c d.1 d.2 n ((x : Int) + d.1)
      ((y : Int) + d.2) with hf
    intro i hi
    by_cases hib : i < b
    · have hk : b - 1 - i < b := by omega
      rw [hb] at hk
      have hs := countDir_sound n B c (-d.1) (-d.2) n ((x : Int) - d.1)
        ((y : Int) - d.2) (b - 1 - i) hk
      have hcast : ((b - 1 - i : Nat) : Int) =
          (b : Int) - 1 - (i : Int) := by omega
      rw [hcast] at hs
      have e1 : (x : Int) - d.1 + ((b : Int) - 1 - (i : Int)) * -d.1 =
          (x : Int) - (b : Int) * d.1 + (i : Int) * d.1 := by ring
      have e2 : (y : Int) - d.2 + ((b : Int) - 1 - (i : Int)) * -d.2 =
          (y : Int) - (b : Int) * d.2 + (i : Int) * d.2 := by ring
      rw [e1, e2] at hs
      exact hs
    · by_cases hieq : i = b
      · subst hieq
        have e1 : (x : Int) - (b : Int) * d.1 + (b : Int) * d.1 =
            (x : Int) := by ring
        have e2 : (y : Int) - (b : Int) * d.2 + (b : Int) * d.2 =
            (y : Int) := by ring
        rw [e1, e2]
        refine ⟨?_, ?_, hBxy⟩ <;>
          simp only [inB, Bool.and_eq_true, decide_eq_true_eq] <;>
          constructor <;> omega
      · have hk : i - b - 1 < f := by omega
        rw [hf] at hk
        have hs := countDir_sound n B c d.1 d.2 n ((x : Int) + d.1)
          ((y : Int) + d.2) (i - b - 1) hk
        have hcast : ((i - b - 1 : Nat) : Int) =
            (i : Int) - (b : Int) - 1 := by omega
        rw [hcast] at hs
        have e1 : (x : Int) + d.1 + ((i : Int) - (b : Int) - 1) * d.1 =
            (x : Int) - (b : Int) * d.1 + (i : Int) * d.1 := by ring
        have e2 : (y : Int) + d.2 + ((i : Int) - (b : Int) - 1) * d.2 =
            (y : Int) - (b : Int) * d.2 + (i : Int) * d.2 := by ring
        rw [e1, e2] at hs
        exact hs
  · rintro ⟨x0, y0, d, hd, hcells⟩
    have h0 := hcells 0 (by omega)
    simp only [Nat.cast_zero, zero_mul, add_zero] at h0
    obtain ⟨hbx, hby, hB0⟩ := h0
    simp only [inB, Bool.and_eq_true, decide_eq_true_eq] at hbx hby
    have hxn : ((x0.toNat : Nat) : Int) = x0 := Int.toNat_of_nonneg hbx.1
    have hyn : ((y0.toNat : Nat) : Int) = y0 := Int.toNat_of_nonneg hby.1
    have hn4 : 4 ≤ n := by
      have h4 := hcells 4 (by omega)
      simp only [directions, List.mem_cons, List.not_mem_nil,
        or_false] at hd
      rcases hd with h | h | h | h <;> subst h <;>
        simp only [inB, Bool.and_eq_true, decide_eq_true_eq] at h4 <;>
        omega
    simp only [is_win, List.any_eq_true, List.mem_range, Bool.and_eq_true,
      decide_eq_true_eq]
    refine ⟨y0.toNat, by omega, x0.toNat, by omega, ?_, d, hd, ?_⟩
    · rw [hxn, hyn]
      exact hB0
    · have hf4 : 4 ≤ countDir n B c d.1 d.2 n
          ((x0.toNat : Int) + d.1) ((y0.toNat : Int) + d.2) := by
        apply countDir_complete n B c d.1 d.2 4 n _ _ hn4
        intro i hi
        have hs := hcells (i + 1) (by omega)
        have e1 : x0 + ((i + 1 : Nat) : Int) * d.1 =
            (x0.toNat : Int) + d.1 + (i : Int) * d.1 := by
          rw [hxn]; push_cast; ring
        have e2 : y0 + ((i + 1 : Nat) : Int) * d.2 =
            (y0.toNat : Int) + d.2 + (i : Int) * d.2 := by
          rw [hyn]; push_cast; ring
        rw [e1, e2] at hs
        exact hs
      have hb0 := Nat.zero_le (countDir n B c (-d.1) (-d.2) n
        ((x0.toNat : Int) - d.1) ((y0.toNat : Int) - d.2))
      omega

lemma rotIter_apply {n : Nat} {α : Type} (M : Mat n α) :
    ∀ (k : Nat) (x y : Fin n),
      rotIter k M x y =
        M ((rotPermIter n k) (x, y)).1 ((rotPermIter n k) (x, y)).2
  | 0, _, _ => rfl
  | k + 1, x, y => rotIter_apply M k y x.rev

lemma finEncode_finDecode {n : Nat} (a : Fin (n * n)) :
    finEncode (finDecode a) = a := by
  apply Fin.ext
  show a.val / n * n + a.val % n = a.val
  rw [Nat.mul_comm]
  exact Nat.div_add_mod a.val n

lemma rotIter_four {n : Nat} {α : Type} (M : Mat n α) : rotIter 4 M = M := by
  funext x y
  rw [rotIter_apply M 4 x y]
  have h : (rotPermIter n 4) (x, y) = (x.rev.rev, y.rev.rev) := rfl
  rw [h, Fin.rev_rev, Fin.rev_rev]

lemma ravel_reshapePi {n : Nat} {β : Type} (pi : Fin (n * n) → β) :
    ravel (reshapePi pi) = pi := by
  funext a
  show pi (finEncode (finDecode a)) = pi a
  rw [finEncode_finDecode]

lemma getSymmetries_eq {n : Nat} {α β : Type} (board : Mat n α)
    (pi : Fin (n * n) → β) :
    getSymmetries board pi = [
      (fliplr (rotIter 1 board), ravel (fliplr (rotIter 1 (reshapePi pi)))),
      (rotIter 1 board, ravel (rotIter 1 (reshapePi pi))),
      (fliplr (rotIter 2 board), ravel (fliplr (rotIter 2 (reshapePi pi)))),
      (rotIter 2 board, ravel (rotIter 2 (reshapePi pi))),
      (fliplr (rotIter 3 board), ravel (fliplr (rotIter 3 (reshapePi pi)))),
      (rotIter 3 board, ravel (rotIter 3 (reshapePi pi))),
      (fliplr (rotIter 4 board), ravel (fliplr (rotIter 4 (reshapePi pi)))),
      (rotIter 4 board, ravel (rotIter 4 (reshapePi pi)))] := rfl

lemma aligned_plain {n : Nat} {α β : Type} (board : Mat n α)
    (pi : Fin (n * n) → β) (k : Nat) :
    (∀ x y : Fin n, rotIter k board x y =
      board ((rotPermIter n k) (x, y)).1 ((rotPermIter n k) (x, y)).2) ∧
    (∀ a : Fin (n * n), ravel (rotIter k (reshapePi pi)) a =
      pi (finEncode ((rotPermIter n k) (finDecode a)))) := by
  constructor
  · intro x y
    exact rotIter_apply board k x y
  · intro a
    show rotIter k (reshapePi pi) (finDecode a).1 (finDecode a).2 = _
    rw [rotIter_apply (reshapePi pi) k (finDecode a).1 (finDecode a).2]
    rfl

lemma aligned_flip {n : Nat} {α β : Type} (board : Mat n α)
    (pi : Fin (n * n) → β) (k : Nat) :
    (∀ x y : Fin n, fliplr (rotIter k board) x y =
      board (((flipPerm n).trans (rotPermIter n k)) (x, y)).1
        (((flipPerm n).trans (rotPermIter n k)) (x, y)).2) ∧
    (∀ a : Fin (n * n), ravel (fliplr (rotIter k (reshapePi pi))) a =
      pi (finEncode
        (((flipPerm n).trans (rotPermIter n k)) (finDecode a)))) := by
  constructor
  · intro x y
    exact rotIter_apply board k x y.rev
  · intro a
    show rotIter k (reshapePi pi) (finDecode a).1 (finDecode a).2.rev = _
    rw [rotIter_apply (reshapePi pi) k (finDecode a).1 (finDecode a).2.rev]
    rfl

/-- **C6.** `getSymmetries` returns exactly 8 pairs, one per element of the
dihedral group of the square (the four rotations, each with and without a
left-right flip); one of the pairs is the original board and policy (the
identity transform, produced by the full-turn `np.rot90(·, 4)` without
flip); and each pair applies one coordinate permutation of the square to
board and policy alike, so the probability at each flattened policy index
refers to the same cell of the transformed board as it did originally. -/
theorem symmetries_dihedral {n : Nat} {α β : Type} (board : Mat n α)
    (pi : Fin (n * n) → β) :
    (getSymmetries board pi).length = 8 ∧
    (board, pi) ∈ getSymmetries board pi ∧
    (∀ pr ∈ getSymmetries board pi,
      ∃ σ : (Fin n × Fin n) ≃ (Fin n × Fin n),
        (∀ x y : Fin n, pr.1 x y = board (σ (x, y)).1 (σ (x, y)).2) ∧
        (∀ a : Fin (n * n),
          pr.2 a = pi (finEncode (σ (finDecode a))))) := by
  refine ⟨by rw [getSymmetries_eq]; rfl, ?_, ?_⟩
  · rw [getSymmetries_eq]
    have hlast : (rotIter 4 board, ravel (rotIter 4 (reshapePi pi))) =
        (board, pi) := by
      rw [rotIter_four, rotIter_four, ravel_reshapePi]
    rw [← hlast]
    simp
  · intro pr hpr
    rw [getSymmetries_eq] at hpr
    simp only [List.mem_cons, List.not_mem_nil, or_false] at hpr
    rcases hpr with h | h | h | h | h | h | h | h <;> subst h
    · exact ⟨(flipPerm n).trans (rotPermIter n 1),
        (aligned_flip board pi 1).1, (aligned_flip board pi 1).2⟩
    · exact ⟨rotPermIter n 1,
        (aligned_plain board pi 1).1, (aligned_plain board pi 1).2⟩
    · exact ⟨(flipPerm n).trans (rotPermIter n 2),
        (aligned_flip board pi 2).1, (aligned_flip board pi 2).2⟩
    · exact ⟨rotPermIter n 2,
        (aligned_plain board pi 2).1, (aligned_plain board pi 2).2⟩
    · exact ⟨(flipPerm n).trans (rotPermIter n 3),
        (aligned_flip board pi 3).1, (aligned_flip board pi 3).2⟩
    · exact ⟨rotPermIter n 3,
        (aligned_plain board pi 3).1, (aligned_plain board pi 3).2⟩
    · exact ⟨(flipPerm n).trans (rotPermIter n 4),
        (aligned_flip board pi 4).1, (aligned_flip board pi 4).2⟩
    · exact ⟨rotPermIter n 4,
        (aligned_plain board pi 4).1, (aligned_plain board pi 4).2⟩

end Gomoku
